import Mathlib

/-!
Shallow embedding of the phishing-detection service in `app.py`: the
HTML-escaping of stored URLs, the history store (`save_to_logs`, `get_logs`),
the domain extraction of `get_domain_age`, and the scoring pipeline of the
`/analyze` handler.  Scores are modelled as rationals, timestamps as opaque
strings passed explicitly, and the log file as an explicit `FileState`.
-/

/-- One stored scan outcome, mirroring the dict written by `save_to_logs`
(`{'url', 'status', 'score', 'time'}`). -/
structure ScanRecord where
  url : String
  status : String
  score : ℚ
  time : String
deriving DecidableEq, Repr

/-- Character-level HTML escaping as performed by `markupsafe.escape`. -/
def escapeChar (c : Char) : List Char :=
  if c = '&' then "&amp;".data
  else if c = '<' then "&lt;".data
  else if c = '>' then "&gt;".data
  else if c = '"' then "&#34;".data
  else if c = '\'' then "&#39;".data
  else [c]

/-- HTML-escape every character of a string (`markupsafe.escape` on `str`). -/
def escape (s : String) : String :=
  ⟨(s.data.map escapeChar).flatten⟩

/-- `save_to_logs` (app.py lines 54-71) applied to an in-memory log: find the
first record whose `url` equals `str(escape(url))` and update its `status`,
`score` and `time` fields in place; append a fresh record at the end if no
record matches. -/
def save_to_logs (logs : List ScanRecord) (url status : String) (score : ℚ)
    (now : String) : List ScanRecord :=
  match logs with
  | [] => [⟨escape url, status, score, now⟩]
  | r :: rest =>
    if r.url = escape url then
      { r with status := status, score := score, time := now } :: rest
    else
      r :: save_to_logs rest url status score now

/-- State of the `scan_history.json` file: missing, present but unparseable,
or parseable with contents `logs`. -/
inductive FileState where
  | absent
  | corrupt
  | content (logs : List ScanRecord)
deriving DecidableEq

/-- The load performed at the top of `save_to_logs` (app.py lines 46-52):
`logs = []`, then `json.load` under `try/except` when the file exists, so a
missing or unparseable file both yield the empty log. -/
def loadForSave : FileState → List ScanRecord
  | .absent => []
  | .corrupt => []
  | .content logs => logs

/-- `save_to_logs` including its load of the log file (app.py lines 44-75). -/
def save_to_logs_file (fs : FileState) (url status : String) (score : ℚ)
    (now : String) : List ScanRecord :=
  save_to_logs (loadForSave fs) url status score now

/-- The pure partition performed by `get_logs` (app.py lines 88-93):
`data.reverse()` then bucket into `status == 'safe'` and `status != 'safe'`. -/
def readAll (logs : List ScanRecord) : List ScanRecord × List ScanRecord :=
  let d := logs.reverse
  (d.filter (fun i => decide (i.status = "safe")),
   d.filter (fun i => decide (i.status ≠ "safe")))

/-- The `/logs` handler (app.py lines 80-93): a missing file yields empty
buckets; an existing file is loaded with `json.load` with NO exception
handler, so an unparseable file raises (modelled as `Except.error`); a
parseable file is reversed and partitioned. -/
def get_logs : FileState → Except String (List ScanRecord × List ScanRecord)
  | .absent => .ok ([], [])
  | .corrupt => .error "json.decoder.JSONDecodeError"
  | .content data => .ok (readAll data)

/-- Human-readable reason entries built by `analyze` (app.py lines 123-135),
with the numeric values they interpolate. -/
inductive Reason where
  | aiPhishing (confidence : ℚ)
  | aiSafe (safetyConfidence : ℚ)
  | brandNew (ageDays : ℤ)
  | established
deriving DecidableEq

/-- The first reason appended by `analyze` (app.py lines 123-126): phishing
confidence when `ai_confidence > 50`, otherwise the complementary
`100 - ai_confidence` safety confidence. -/
def aiReason (c : ℚ) : Reason :=
  if 50 < c then .aiPhishing c else .aiSafe (100 - c)

/-- The scoring step of `analyze` (app.py lines 118-136): start from the AI
confidence, then for a known domain age add 15 with a brand-new-domain reason
when `age < 30`, subtract 10 with an established-domain reason when
`age > 1000`, and otherwise leave the score alone; a `None` age skips the
adjustment entirely. -/
def scoreStep (c : ℚ) (age : Option ℤ) : ℚ × List Reason :=
  match age with
  | none => (c, [aiReason c])
  | some a =>
    if a < 30 then (c + 15, [aiReason c] ++ [.brandNew a])
    else if 1000 < a then (c - 10, [aiReason c] ++ [.established])
    else (c, [aiReason c])

/-- Python's `round` to an integer: round half to even. -/
def pythonRound (x : ℚ) : ℤ :=
  if x - ⌊x⌋ < 1/2 then ⌊x⌋
  else if 1/2 < x - ⌊x⌋ then ⌊x⌋ + 1
  else if ⌊x⌋ % 2 = 0 then ⌊x⌋ else ⌊x⌋ + 1

/-- Python's `round(x, 1)`: round to one decimal place, half to even. -/
def round1 (x : ℚ) : ℚ := (pythonRound (10 * x) : ℚ) / 10

/-- `final_score` (app.py line 138): `max(0, min(100, round(risk_score, 1)))`. -/
def finalScore (c : ℚ) (age : Option ℤ) : ℚ :=
  max 0 (min 100 (round1 (scoreStep c age).1))

/-- `status` (app.py line 140): `"danger" if final_score >= 50 else "safe"`. -/
def statusOf (c : ℚ) (age : Option ℤ) : String :=
  if 50 ≤ finalScore c age then "danger" else "safe"

/-- The `age` field of the `/analyze` response (app.py line 148):
`f"{age} days" if age else "Unknown"`; note that Python truthiness sends both
`None` and `0` to the `"Unknown"` branch. -/
inductive AgeDisplay where
  | days (n : ℤ)
  | unknown
deriving DecidableEq

/-- `f"{age} days" if age else "Unknown"` (app.py line 148). -/
def ageDisplay : Option ℤ → AgeDisplay
  | none => .unknown
  | some a => if a ≠ 0 then .days a else .unknown

/-- Body of a `/analyze` response: the error shape or the success shape. -/
inductive AnalyzeResult where
  | error (message : String)
  | ok (status : String) (score : ℚ) (reasons : List Reason) (age : AgeDisplay)
deriving DecidableEq

/-- The `/analyze` handler (app.py lines 95-151), with the classifier output
`c` and the domain-age lookup result `age` passed in as the values returned by
those external calls: an empty URL is rejected before anything else runs and
leaves the file untouched; otherwise the score, status, reasons and age
display are computed and the log file is rewritten through `save_to_logs`. -/
def analyze (url : String) (c : ℚ) (age : Option ℤ) (fs : FileState)
    (now : String) : AnalyzeResult × FileState :=
  if url = "" then (.error "Empty URL", fs)
  else
    (.ok (statusOf c age) (finalScore c age) (scoreStep c age).2 (ageDisplay age),
     .content (save_to_logs_file fs url (statusOf c age) (finalScore c age) now))

/-- The urls stored in a log, in order. -/
def urls (logs : List ScanRecord) : List String := logs.map ScanRecord.url

/-- Replay a sequence of `save_to_logs` calls (url, status, score, time)
starting from the empty log. -/
def upsertOps (ops : List (String × String × ℚ × String)) : List ScanRecord :=
  ops.foldl (fun logs o => save_to_logs logs o.1 o.2.1 o.2.2.1 o.2.2.2) []

/-- `startsWith sep xs` holds when `sep` begins `xs`. -/
def startsWith : List Char → List Char → Bool
  | [], _ => true
  | _ :: _, [] => false
  | a :: as, b :: bs => a = b && startsWith as bs

/-- Locate the first occurrence of `sep` in `xs`, returning the text before it
and the text after it. -/
def findSep (sep : List Char) : List Char → Option (List Char × List Char)
  | [] => none
  | c :: rest =>
    if startsWith sep (c :: rest) then some ([], (c :: rest).drop sep.length)
    else (findSep sep rest).map (fun p => (c :: p.1, p.2))

/-- Fuelled worker for `splitOnSep`. -/
def splitGo (sep : List Char) : ℕ → List Char → List (List Char)
  | 0, xs => [xs]
  | n + 1, xs =>
    match findSep sep xs with
    | none => [xs]
    | some (b, a) => b :: splitGo sep n a

/-- Python's `str.split(sep)` for a non-empty separator, on character lists. -/
def splitOnSep (sep xs : List Char) : List (List Char) :=
  splitGo sep xs.length xs

/-- The domain extraction of `get_domain_age` (app.py line 33):
`url.split("//")[-1].split("/")[0]` — the segment after the LAST `"//"`,
truncated at the first following `"/"`. -/
def getDomainL (url : List Char) : List Char :=
  (splitOnSep ['/'] ((splitOnSep ['/', '/'] url).getLastD [])).headD []

/-- `get_domain_age`'s queried domain, on strings. -/
def get_domain (url : String) : String := ⟨getDomainL url.data⟩

/-- The domain extraction as the spec words it: strip the scheme (the text up
to and including the FIRST `"//"`) and take the substring up to the first path
separator. -/
def domainFromSpec (url : String) : String :=
  ⟨(match findSep ['/', '/'] url.data with
    | none => url.data
    | some p => p.2).takeWhile (fun c => c != '/')⟩

/-- `xs` contains no two consecutive `'/'` characters. -/
def noTwoSlashes : List Char → Bool
  | a :: b :: rest => !(a = '/' && b = '/') && noTwoSlashes (b :: rest)
  | _ => true

/-! ### Theorems -/

/-- Claim C1: for every classifier confidence in [0,100] and every domain age
in {unknown, 0, 29, 30, 500, 1000, 1001}, the final score lies in [0,100], is
a multiple of one tenth (rounded to one decimal place), and the status is
"danger" exactly when the final score is at least 50. -/
theorem C1_final_score_bounds (c : ℚ) (age : Option ℤ)
    (hc0 : 0 ≤ c) (hc1 : c ≤ 100)
    (hage : age ∈ ([none, some 0, some 29, some 30, some 500, some 1000,
      some 1001] : List (Option ℤ))) :
    0 ≤ finalScore c age ∧ finalScore c age ≤ 100 ∧
      (∃ k : ℤ, finalScore c age = (k : ℚ) / 10) ∧
      (statusOf c age = "danger" ↔ 50 ≤ finalScore c age) := by
  refine ⟨le_max_left _ _, max_le (by norm_num) (min_le_left _ _), ?_, ?_⟩
  · rcases le_or_lt (round1 (scoreStep c age).1) 0 with h | h
    · refine ⟨0, ?_⟩
      simp only [finalScore]
      rw [min_eq_right (h.trans (by norm_num)), max_eq_left h]
      norm_num
    · rcases le_or_lt 100 (round1 (scoreStep c age).1) with h2 | h2
      · refine ⟨1000, ?_⟩
        simp only [finalScore]
        rw [min_eq_left h2, max_eq_right (by norm_num)]
        norm_num
      · refine ⟨pythonRound (10 * (scoreStep c age).1), ?_⟩
        simp only [finalScore]
        rw [min_eq_right h2.le, max_eq_right h.le]
        rfl
  · by_cases h : 50 ≤ finalScore c age
    · rw [statusOf, if_pos h]
      exact ⟨fun _ => h, fun _ => rfl⟩
    · rw [statusOf, if_neg h]
      exact ⟨fun hh => absurd hh (by decide), fun hh => absurd hh h⟩

/-- Witness for C1 at confidence 60 and domain age 29. -/
theorem C1_final_score_bounds_witness :
    0 ≤ (60 : ℚ) ∧ (60 : ℚ) ≤ 100 ∧
      some 29 ∈ ([none, some 0, some 29, some 30, some 500, some 1000,
        some 1001] : List (Option ℤ)) ∧
      (0 ≤ finalScore 60 (some 29) ∧ finalScore 60 (some 29) ≤ 100 ∧
        (∃ k : ℤ, finalScore 60 (some 29) = (k : ℚ) / 10) ∧
        (statusOf 60 (some 29) = "danger" ↔ 50 ≤ finalScore 60 (some 29))) :=
  ⟨by norm_num, by norm_num, by decide,
    C1_final_score_bounds 60 (some 29) (by norm_num) (by norm_num) (by decide)⟩

/-- Claim C3: a known age below 30 adds 15 and appends the brand-new-domain
reason; ages in [30,1000] change nothing; a known age above 1000 subtracts 10
and appends the established-domain reason; an unknown age skips the
adjustment, adding no reason and raising no error. -/
theorem C3_age_adjustment (c : ℚ) (a : ℤ) :
    (a < 30 → (scoreStep c (some a)).1 = (scoreStep c none).1 + 15 ∧
      (scoreStep c (some a)).2 = (scoreStep c none).2 ++ [Reason.brandNew a]) ∧
    (30 ≤ a → a ≤ 1000 → scoreStep c (some a) = scoreStep c none) ∧
    (1000 < a → (scoreStep c (some a)).1 = (scoreStep c none).1 - 10 ∧
      (scoreStep c (some a)).2 = (scoreStep c none).2 ++ [Reason.established]) ∧
    scoreStep c none = (c, [aiReason c]) := by
  refine ⟨fun h => ?_, fun h1 h2 => ?_, fun h => ?_, rfl⟩
  · simp [scoreStep, if_pos h]
  · have h3 : ¬ a < 30 := by omega
    have h4 : ¬ 1000 < a := by omega
    simp [scoreStep, h3, h4]
  · have h1 : ¬ a < 30 := by omega
    simp [scoreStep, h1, h]

/-- Witness for C3 at the boundary ages 29, 30, 1000, 1001 and unknown. -/
theorem C3_age_adjustment_witness :
    ((scoreStep 40 (some 29)).1 = (scoreStep 40 none).1 + 15 ∧
      (scoreStep 40 (some 29)).2 = (scoreStep 40 none).2 ++ [Reason.brandNew 29]) ∧
    scoreStep 40 (some 30) = scoreStep 40 none ∧
    scoreStep 40 (some 1000) = scoreStep 40 none ∧
    ((scoreStep 40 (some 1001)).1 = (scoreStep 40 none).1 - 10 ∧
      (scoreStep 40 (some 1001)).2 = (scoreStep 40 none).2 ++ [Reason.established]) ∧
    scoreStep 40 none = (40, [aiReason 40]) :=
  ⟨(C3_age_adjustment 40 29).1 (by decide),
   (C3_age_adjustment 40 30).2.1 (by decide) (by decide),
   (C3_age_adjustment 40 1000).2.1 (by decide) (by decide),
   (C3_age_adjustment 40 1001).2.2.1 (by decide),
   (C3_age_adjustment 40 0).2.2.2⟩

/-- Claim C6 counterexample: a known domain age of 0 days is displayed as
"Unknown", not "0 days", because `f"{age} days" if age else "Unknown"` tests
Python truthiness and `0` is falsy. -/
theorem C6_age_zero_counterexample :
    ageDisplay (some 0) = AgeDisplay.unknown ∧
      ageDisplay (some 0) ≠ AgeDisplay.days 0 := by
  decide

/-- Claim C6 (amended): the age display is "<N> days" whenever the lookup
returned a known nonzero age N, and "Unknown" when the lookup returned
unknown or returned 0. -/
theorem C6_age_display (a : ℤ) :
    (a ≠ 0 → ageDisplay (some a) = AgeDisplay.days a) ∧
    ageDisplay none = AgeDisplay.unknown ∧
    ageDisplay (some 0) = AgeDisplay.unknown := by
  refine ⟨fun h => ?_, rfl, by decide⟩
  simp [ageDisplay, h]

/-- Witness for C6 at a known age of 5 days. -/
theorem C6_age_display_witness :
    ageDisplay (some 5) = AgeDisplay.days 5 ∧
    ageDisplay none = AgeDisplay.unknown ∧
    ageDisplay (some 0) = AgeDisplay.unknown :=
  ⟨(C6_age_display 5).1 (by decide), (C6_age_display 5).2⟩

/-- Claim C7: a scan request with an empty URL yields the error result
with message "Empty URL" and leaves the log file untouched. -/
theorem C7_empty_url (c : ℚ) (age : Option ℤ) (fs : FileState) (now : String) :
    analyze "" c age fs now = (AnalyzeResult.error "Empty URL", fs) := by
  rfl

@[simp] theorem urls_nil : urls [] = [] := rfl

@[simp] theorem urls_cons (r : ScanRecord) (rest : List ScanRecord) :
    urls (r :: rest) = r.url :: urls rest := rfl

theorem urls_save_to_logs_of_mem (logs : List ScanRecord) (u s : String)
    (sc : ℚ) (t : String) (h : escape u ∈ urls logs) :
    urls (save_to_logs logs u s sc t) = urls logs := by
  induction logs with
  | nil => simp at h
  | cons r rest ih =>
    by_cases hr : r.url = escape u
    · simp [save_to_logs, hr]
    · have h' : escape u ∈ urls rest := by
        rcases List.mem_cons.mp h with h | h
        · exact absurd h.symm hr
        · exact h
      simp [save_to_logs, hr, ih h']

theorem save_to_logs_of_not_mem (logs : List ScanRecord) (u s : String)
    (sc : ℚ) (t : String) (h : escape u ∉ urls logs) :
    save_to_logs logs u s sc t = logs ++ [⟨escape u, s, sc, t⟩] := by
  induction logs with
  | nil => rfl
  | cons r rest ih =>
    have hr : ¬ r.url = escape u := fun he => h (by simp [he])
    have h' : escape u ∉ urls rest := fun hm => h (by simp [hm])
    simp [save_to_logs, hr, ih h']

theorem nodup_urls_save_to_logs (logs : List ScanRecord) (u s : String)
    (sc : ℚ) (t : String) (h : (urls logs).Nodup) :
    (urls (save_to_logs logs u s sc t)).Nodup := by
  by_cases hm : escape u ∈ urls logs
  · rw [urls_save_to_logs_of_mem _ _ _ _ _ hm]; exact h
  · rw [save_to_logs_of_not_mem _ _ _ _ _ hm]
    have hrw : urls (logs ++ [⟨escape u, s, sc, t⟩]) = urls logs ++ [escape u] := by
      simp [urls]
    rw [hrw]
    exact List.Nodup.append h (List.nodup_singleton _) (by simpa using hm)

theorem nodup_urls_upsert_foldl (ops : List (String × String × ℚ × String)) :
    ∀ l : List ScanRecord, (urls l).Nodup →
      (urls (ops.foldl (fun logs o => save_to_logs logs o.1 o.2.1 o.2.2.1 o.2.2.2) l)).Nodup := by
  induction ops with
  | nil => intro l h; simpa using h
  | cons o rest ih =>
    intro l h
    simp only [List.foldl_cons]
    exact ih _ (nodup_urls_save_to_logs _ _ _ _ _ h)

/-- Claim C2: every log reachable from the empty log by upserts carries at
most one record per distinct escaped url, and upserting a URL that is already
present overwrites that record in place, so scanning the same URL first as
safe/10 and then as danger/90 leaves exactly one record with the later status
and score. -/
theorem C2_url_dedup_invariant :
    (∀ ops : List (String × String × ℚ × String), (urls (upsertOps ops)).Nodup) ∧
    ∀ t1 t2 : String,
      save_to_logs (save_to_logs [] "http://a.com" "safe" 10 t1) "http://a.com" "danger" 90 t2
        = [⟨"http://a.com", "danger", 90, t2⟩] := by
  constructor
  · intro ops
    simp only [upsertOps]
    exact nodup_urls_upsert_foldl ops [] (by simp)
  · intro t1 t2
    have he : escape "http://a.com" = "http://a.com" := by decide
    simp [save_to_logs, he]

theorem save_to_logs_idem (logs : List ScanRecord) (u s : String) (sc : ℚ)
    (t1 t2 : String) :
    save_to_logs (save_to_logs logs u s sc t1) u s sc t2
      = save_to_logs logs u s sc t2 := by
  induction logs with
  | nil => simp [save_to_logs]
  | cons r rest ih =>
    by_cases hr : r.url = escape u
    · simp [save_to_logs, hr]
    · simp [save_to_logs, hr, ih]

theorem countP_save_to_logs (logs : List ScanRecord) (u s : String) (sc : ℚ)
    (t : String) (h : (urls logs).Nodup) :
    (save_to_logs logs u s sc t).countP (fun r => decide (r.url = escape u)) = 1 := by
  induction logs with
  | nil => simp [save_to_logs]
  | cons r rest ih =>
    by_cases hr : r.url = escape u
    · have hnot : escape u ∉ urls rest := by
        rw [← hr]; exact (List.nodup_cons.mp (by simpa using h)).1
      have hzero : rest.countP (fun r' => decide (r'.url = escape u)) = 0 := by
        rw [List.countP_eq_zero]
        intro r' hr'
        simp only [decide_eq_true_eq]
        intro he
        exact hnot (by simpa [urls] using ⟨r', hr', he⟩)
      simp [save_to_logs, hr, List.countP_cons, hzero]
    · have h' := (List.nodup_cons.mp (by simpa using h)).2
      simp [save_to_logs, hr, List.countP_cons, ih h']

theorem mem_save_to_logs_url (logs : List ScanRecord) (u s : String) (sc : ℚ)
    (t : String) (h : (urls logs).Nodup) :
    ∀ r ∈ save_to_logs logs u s sc t, r.url = escape u → r = ⟨escape u, s, sc, t⟩ := by
  induction logs with
  | nil =>
    intro r hr _
    simpa [save_to_logs] using hr
  | cons q rest ih =>
    have hq_nodup := List.nodup_cons.mp (by simpa using h)
    by_cases hq : q.url = escape u
    · intro r hr hu
      rcases List.mem_cons.mp (by simpa [save_to_logs, hq] using hr) with hr' | hr'
      · subst hr'
        cases q with
        | mk qu qs qsc qt => simp_all
      · exfalso
        have hmem : escape u ∈ urls rest := by
          simpa [urls] using ⟨r, hr', hu⟩
        exact hq_nodup.1 (hq ▸ hmem)
    · intro r hr hu
      rcases List.mem_cons.mp (by simpa [save_to_logs, hq] using hr) with hr' | hr'
      · subst hr'; exact absurd hu hq
      · exact ih hq_nodup.2 r hr' hu

/-- Claim C8: upserting the same URL, status and score twice in a row equals
a single upsert carrying the second timestamp; the result holds exactly one
record for that URL and its time field is the second call's timestamp. -/
theorem C8_upsert_idempotent (logs : List ScanRecord) (u s : String) (sc : ℚ)
    (t1 t2 : String) (h : (urls logs).Nodup) :
    save_to_logs (save_to_logs logs u s sc t1) u s sc t2
        = save_to_logs logs u s sc t2 ∧
    (save_to_logs (save_to_logs logs u s sc t1) u s sc t2).countP
        (fun r => decide (r.url = escape u)) = 1 ∧
    ∀ r ∈ save_to_logs (save_to_logs logs u s sc t1) u s sc t2,
      r.url = escape u → r.time = t2 := by
  refine ⟨save_to_logs_idem logs u s sc t1 t2, ?_, ?_⟩
  · rw [save_to_logs_idem]
    exact countP_save_to_logs logs u s sc t2 h
  · rw [save_to_logs_idem]
    intro r hr hu
    rw [mem_save_to_logs_url logs u s sc t2 h r hr hu]

/-- Witness for C8: double upsert of "a" as safe/10 into the empty log. -/
theorem C8_upsert_idempotent_witness :
    save_to_logs (save_to_logs [] "a" "safe" 10 "t1") "a" "safe" 10 "t2"
        = save_to_logs [] "a" "safe" 10 "t2" ∧
    (save_to_logs (save_to_logs [] "a" "safe" 10 "t1") "a" "safe" 10 "t2").countP
        (fun r => decide (r.url = escape "a")) = 1 ∧
    ∀ r ∈ save_to_logs (save_to_logs [] "a" "safe" 10 "t1") "a" "safe" 10 "t2",
      r.url = escape "a" → r.time = "t2" :=
  C8_upsert_idempotent [] "a" "safe" 10 "t1" "t2" (by simp)

/-- Claim C10: upserting a URL already present updates exactly the first
matching record — same length, every other position untouched, the matching
record keeping its url and position with only status, score and time
replaced. -/
theorem C10_upsert_frame (logs : List ScanRecord) (u s : String) (sc : ℚ)
    (t : String) (h : escape u ∈ urls logs) :
    ∃ i : ℕ, i < logs.length ∧
      (∀ k (hk : k < logs.length), k < i → (logs.get ⟨k, hk⟩).url ≠ escape u) ∧
      logs[i]?.map ScanRecord.url = some (escape u) ∧
      (save_to_logs logs u s sc t).length = logs.length ∧
      (save_to_logs logs u s sc t)[i]? =
        (logs[i]?).map (fun r => { r with status := s, score := sc, time := t }) ∧
      ∀ j, j ≠ i → (save_to_logs logs u s sc t)[j]? = logs[j]? := by
  induction logs with
  | nil => simp at h
  | cons r rest ih =>
    by_cases hr : r.url = escape u
    · refine ⟨0, by simp, ?_, ?_, ?_, ?_, ?_⟩
      · intro k hk hk0; omega
      · simp [hr]
      · simp [save_to_logs, hr]
      · simp [save_to_logs, hr]
      · intro j hj
        cases j with
        | zero => exact absurd rfl hj
        | succ j' => simp [save_to_logs, hr]
    · have h' : escape u ∈ urls rest := by
        rcases List.mem_cons.mp h with hm | hm
        · exact absurd hm.symm hr
        · exact hm
      obtain ⟨i, hi, hfirst, hurl, hlen, hupd, hframe⟩ := ih h'
      refine ⟨i + 1, by simpa using hi, ?_, ?_, ?_, ?_, ?_⟩
      · intro k hk hki
        cases k with
        | zero => simpa using hr
        | succ k' =>
          have hk' : k' < rest.length := by simpa using hk
          simpa using hfirst k' hk' (by omega)
      · simpa using hurl
      · simpa [save_to_logs, hr] using hlen
      · simpa [save_to_logs, hr] using hupd
      · intro j hj
        cases j with
        | zero => simp [save_to_logs, hr]
        | succ j' =>
          simpa [save_to_logs, hr] using hframe j' (by omega)

/-- Witness for C10: updating "a" inside a two-record log where it sits at
position 1. -/
theorem C10_upsert_frame_witness :
    ∃ i : ℕ,
      i < ([⟨"b", "safe", 5, "t0"⟩, ⟨"a", "danger", 7, "t0"⟩] : List ScanRecord).length ∧
      (∀ k (hk : k < ([⟨"b", "safe", 5, "t0"⟩, ⟨"a", "danger", 7, "t0"⟩] : List ScanRecord).length),
        k < i →
        (([⟨"b", "safe", 5, "t0"⟩, ⟨"a", "danger", 7, "t0"⟩] : List ScanRecord).get ⟨k, hk⟩).url
          ≠ escape "a") ∧
      ([⟨"b", "safe", 5, "t0"⟩, ⟨"a", "danger", 7, "t0"⟩] : List ScanRecord)[i]?.map ScanRecord.url
        = some (escape "a") ∧
      (save_to_logs [⟨"b", "safe", 5, "t0"⟩, ⟨"a", "danger", 7, "t0"⟩] "a" "safe" 90 "t9").length
        = ([⟨"b", "safe", 5, "t0"⟩, ⟨"a", "danger", 7, "t0"⟩] : List ScanRecord).length ∧
      (save_to_logs [⟨"b", "safe", 5, "t0"⟩, ⟨"a", "danger", 7, "t0"⟩] "a" "safe" 90 "t9")[i]? =
        (([⟨"b", "safe", 5, "t0"⟩, ⟨"a", "danger", 7, "t0"⟩] : List ScanRecord)[i]?).map
          (fun r => { r with status := "safe", score := 90, time := "t9" }) ∧
      ∀ j, j ≠ i →
        (save_to_logs [⟨"b", "safe", 5, "t0"⟩, ⟨"a", "danger", 7, "t0"⟩] "a" "safe" 90 "t9")[j]?
          = ([⟨"b", "safe", 5, "t0"⟩, ⟨"a", "danger", 7, "t0"⟩] : List ScanRecord)[j]? :=
  C10_upsert_frame [⟨"b", "safe", 5, "t0"⟩, ⟨"a", "danger", 7, "t0"⟩] "a" "safe" 90 "t9"
    (by decide)

/-- Claim C5 counterexample: an unparseable log file makes the `/logs` read
path fail with an error instead of being treated as an empty log, because
`get_logs` calls `json.load` with no exception handler. -/
theorem C5_readAll_error_counterexample :
    get_logs FileState.corrupt = Except.error "json.decoder.JSONDecodeError" ∧
    ∀ pair : List ScanRecord × List ScanRecord,
      get_logs FileState.corrupt ≠ Except.ok pair := by
  refine ⟨rfl, fun pair hp => ?_⟩
  simp [get_logs] at hp

/-- Claim C5 (amended): the upsert path treats a missing or unparseable file
as the empty log and never surfaces an error, and the `/logs` read path does
so only for a missing file — an unparseable file surfaces as an error there. -/
theorem C5_parse_failure_policy :
    (∀ (u s : String) (sc : ℚ) (t : String),
      save_to_logs_file FileState.corrupt u s sc t
          = save_to_logs_file FileState.absent u s sc t ∧
      save_to_logs_file FileState.corrupt u s sc t = [⟨escape u, s, sc, t⟩]) ∧
    get_logs FileState.absent = Except.ok ([], []) ∧
    (∃ msg, get_logs FileState.corrupt = Except.error msg) :=
  ⟨fun _ _ _ _ => ⟨rfl, rfl⟩, rfl, ⟨"json.decoder.JSONDecodeError", rfl⟩⟩

/-- Claim C4: the `/logs` operation reverses insertion order and partitions
into a good bucket of exactly the safe records and a bad bucket of exactly
the rest, each preserving the reversed relative order; after inserting
X (safe), Y (danger), Z (safe) it returns good = [Z, X] and bad = [Y]. -/
theorem C4_readAll_partition :
    (∀ logs : List ScanRecord,
      get_logs (FileState.content logs) = Except.ok (readAll logs) ∧
      (readAll logs).1.Sublist logs.reverse ∧
      (readAll logs).2.Sublist logs.reverse ∧
      (∀ r : ScanRecord, r ∈ (readAll logs).1 ↔ r ∈ logs.reverse ∧ r.status = "safe") ∧
      (∀ r : ScanRecord, r ∈ (readAll logs).2 ↔ r ∈ logs.reverse ∧ r.status ≠ "safe")) ∧
    readAll [⟨"X", "safe", 10, "tX"⟩, ⟨"Y", "danger", 90, "tY"⟩, ⟨"Z", "safe", 20, "tZ"⟩]
      = ([⟨"Z", "safe", 20, "tZ"⟩, ⟨"X", "safe", 10, "tX"⟩],
         [⟨"Y", "danger", 90, "tY"⟩]) := by
  constructor
  · intro logs
    refine ⟨rfl, List.filter_sublist _, List.filter_sublist _, ?_, ?_⟩
    · intro r; simp [readAll]
    · intro r; simp [readAll]
  · simp [readAll]

theorem startsWith_append (sep rest : List Char) : startsWith sep (sep ++ rest) = true := by
  induction sep with
  | nil => rfl
  | cons a as ih => simp [startsWith, ih]

theorem findSep_boundary (c : Char) (cs s rest : List Char) (h : c ∉ s) :
    findSep (c :: cs) (s ++ ((c :: cs) ++ rest)) = some (s, rest) := by
  induction s with
  | nil =>
    simp only [List.nil_append]
    have hsw : startsWith (c :: cs) (c :: (cs ++ rest)) = true := by
      simp [startsWith, startsWith_append]
    simp [findSep, hsw, List.drop_left]
  | cons a s' ih =>
    have ha : ¬ c = a := fun he => h (he ▸ List.mem_cons_self a s')
    have h' : c ∉ s' := fun hm => h (List.mem_cons_of_mem a hm)
    have hsw : startsWith (c :: cs) (a :: (s' ++ c :: (cs ++ rest))) = false := by
      simp [startsWith, ha]
    have ih' := ih h'
    simp only [List.cons_append] at ih'
    simp [findSep, hsw, ih']

theorem findSep_none_of_noTwoSlashes (xs : List Char)
    (h : noTwoSlashes xs = true) : findSep ['/', '/'] xs = none := by
  induction xs with
  | nil => rfl
  | cons a rest ih =>
    cases rest with
    | nil => simp [findSep, startsWith]
    | cons b rest' =>
      have hparts := h
      simp only [noTwoSlashes, Bool.and_eq_true, Bool.not_eq_true',
        Bool.and_eq_false_iff, decide_eq_false_iff_not] at hparts
      have hnt : noTwoSlashes (b :: rest') = true := hparts.2
      have hsw : startsWith ['/', '/'] (a :: b :: rest') = false := by
        rcases hparts.1 with hab | hab
        · have : ¬ '/' = a := fun he => hab he.symm
          simp [startsWith, this]
        · have : ¬ '/' = b := fun he => hab he.symm
          simp [startsWith, this]
      have hstep : findSep ['/', '/'] (a :: b :: rest')
          = if startsWith ['/', '/'] (a :: b :: rest') = true
            then some ([], (a :: b :: rest').drop (['/', '/'].length))
            else (findSep ['/', '/'] (b :: rest')).map (fun p => (a :: p.1, p.2)) := rfl
      rw [hstep, hsw, ih hnt]
      simp

theorem noTwoSlashes_append (host p : List Char) (hh : '/' ∉ host)
    (hp : noTwoSlashes ('/' :: p) = true) :
    noTwoSlashes (host ++ '/' :: p) = true := by
  induction host with
  | nil => simpa using hp
  | cons a host' ih =>
    have ha : ¬ a = '/' := fun he => hh (he ▸ List.mem_cons_self a host')
    have hh' : '/' ∉ host' := fun hm => hh (List.mem_cons_of_mem a hm)
    cases host' with
    | nil =>
      simp only [List.nil_append] at ih ⊢
      simp [noTwoSlashes, ha, hp]
    | cons b host'' =>
      have hrec := ih hh'
      simp only [List.cons_append] at hrec ⊢
      simp [noTwoSlashes, ha, hrec]

theorem splitGo_none (sep : List Char) (n : ℕ) (xs : List Char)
    (h : findSep sep xs = none) : splitGo sep n xs = [xs] := by
  cases n with
  | zero => rfl
  | succ n => simp [splitGo, h]

theorem splitGo_some (sep : List Char) (n : ℕ) (xs b a : List Char)
    (h : findSep sep xs = some (b, a)) (hn : 0 < n) :
    splitGo sep n xs = b :: splitGo sep (n - 1) a := by
  cases n with
  | zero => omega
  | succ n => simp [splitGo, h]

/-- Claim C9 counterexample: `url.split("//")[-1]` keeps the text after the
LAST double slash, so a URL whose path contains "//" does not query the host:
"http://a.com//evil.com" queries "evil.com" while stripping the scheme and
cutting at the first path separator would give "a.com". -/
theorem C9_last_separator_counterexample :
    get_domain "http://a.com//evil.com" = "evil.com" ∧
    domainFromSpec "http://a.com//evil.com" = "a.com" ∧
    get_domain "http://a.com//evil.com" ≠ domainFromSpec "http://a.com//evil.com" := by
  decide

/-- Claim C9 (amended): the queried domain is the text after the last "//",
truncated at the first following "/"; in particular for a URL of the form
scheme://host/path whose scheme and host contain no "/" and whose path
introduces no further "//", the queried domain is the host. -/
theorem C9_domain_extraction (s host p : List Char)
    (hs : '/' ∉ s) (hh : '/' ∉ host) (hp : noTwoSlashes ('/' :: p) = true) :
    getDomainL (s ++ '/' :: '/' :: (host ++ '/' :: p)) = host := by
  have h1 : findSep ['/', '/'] (s ++ '/' :: '/' :: (host ++ '/' :: p))
      = some (s, host ++ '/' :: p) := findSep_boundary '/' ['/'] s (host ++ '/' :: p) hs
  have h2 : noTwoSlashes (host ++ '/' :: p) = true := noTwoSlashes_append host p hh hp
  have h3 : findSep ['/', '/'] (host ++ '/' :: p) = none :=
    findSep_none_of_noTwoSlashes _ h2
  have hne : (s ++ '/' :: '/' :: (host ++ '/' :: p)) ≠ [] := by
    cases s <;> simp
  have hpos : 0 < (s ++ '/' :: '/' :: (host ++ '/' :: p)).length :=
    List.length_pos.mpr hne
  have hsplit2 : splitOnSep ['/', '/'] (s ++ '/' :: '/' :: (host ++ '/' :: p))
      = [s, host ++ '/' :: p] := by
    rw [splitOnSep, splitGo_some _ _ _ _ _ h1 hpos, splitGo_none _ _ _ h3]
  have hf : findSep ['/'] (host ++ '/' :: p) = some (host, p) :=
    findSep_boundary '/' [] host p hh
  have hne2 : (host ++ '/' :: p) ≠ [] := by cases host <;> simp
  have hpos2 : 0 < (host ++ '/' :: p).length := List.length_pos.mpr hne2
  have hsplit1 : splitOnSep ['/'] (host ++ '/' :: p)
      = host :: splitGo ['/'] ((host ++ '/' :: p).length - 1) p := by
    rw [splitOnSep, splitGo_some _ _ _ _ _ hf hpos2]
  simp only [getDomainL, hsplit2]
  simp [hsplit1]

/-- Witness for C9 on scheme "http:", host "a.com", path "path". -/
theorem C9_domain_extraction_witness :
    getDomainL ("http:".data ++ '/' :: '/' :: ("a.com".data ++ '/' :: "path".data))
      = "a.com".data :=
  C9_domain_extraction "http:".data "a.com".data "path".data
    (by decide) (by decide) (by decide)
